import Mathlib

/-!
Verification of the EDF scheduler extension for FreeRTOS (course project
CPSC 538, repository `freertos-538`).

The kernel file `tasks.c` is not part of the available sources; the admission
controller, release engine, dispatcher and miss monitor are therefore
modelled from the specification and the change/design documents
(`changes_EDF.md`, `design_EDF.md`).  The demo programs `main_edf.c` and
`main_edf_100test.c` are available and the definitions taken from them are
translated directly.

All tick quantities are modelled as `Nat` (the spec leaves tick-counter
rollover unspecified and all scenarios stay far below 2^32).
-/

namespace EDF

/-- Modelled from the spec: a registry entry `{xWCET, xPeriod, xRelativeDeadline}`
of `xEDFTaskRegistry[]` in `tasks.c` (missing from the sources): worst-case
execution time C, period T and relative deadline D, in ticks. -/
structure EDFParams where
  xWCET : Nat
  xPeriod : Nat
  xRelativeDeadline : Nat
  deriving Repr, DecidableEq

/-- Modelled from the spec: the fixed-point per-task utilization term
`Ci * 10000 / Ti` (C integer division, i.e. floor) used by
`prvEDFCheckLLBound` in `tasks.c` (missing from the sources). -/
def llTerm (t : EDFParams) : Nat :=
  t.xWCET * 10000 / t.xPeriod

/-- Modelled from the spec: `prvEDFCheckLLBound` of `tasks.c` (missing from
the sources) — the Liu & Layland utilization bound with scale factor 10000:
accept iff `Σ_i floor(Ci * 10000 / Ti) ≤ 10000`. -/
def prvEDFCheckLLBound (ts : List EDFParams) : Bool :=
  decide ((ts.map llTerm).sum ≤ 10000)

/-- Exact rational utilization `Σ_i Ci / Ti` of a task set (the quantity the
spec's admission-safety property talks about). -/
def utilization (ts : List EDFParams) : ℚ :=
  (ts.map (fun t => (t.xWCET : ℚ) / (t.xPeriod : ℚ))).sum

/-- Modelled from the spec: the per-task demand term
`max(0, floor((L - Di)/Ti) + 1) * Ci` of `prvEDFCheckProcessorDemand` in
`tasks.c` (missing from the sources); a negative `(L - Di)` contributes
zero. -/
def demandTerm (t : EDFParams) (L : Nat) : Nat :=
  if L < t.xRelativeDeadline then 0
  else ((L - t.xRelativeDeadline) / t.xPeriod + 1) * t.xWCET

/-- Modelled from the spec: the processor demand
`h(L) = Σ_i max(0, floor((L - Di)/Ti) + 1) * Ci`. -/
def xDemand (ts : List EDFParams) (L : Nat) : Nat :=
  (ts.map (fun t => demandTerm t L)).sum

/-- The largest period among the tasks of a set. -/
def maxPeriod (ts : List EDFParams) : Nat :=
  ts.foldr (fun t m => max t.xPeriod m) 0

/-- Modelled from the spec: the PDA horizon
`H = min(4 * max_i(Ti), 60 * tick_rate)` of `prvEDFCheckProcessorDemand` in
`tasks.c` (missing from the sources). -/
def xHorizon (ts : List EDFParams) (tickRate : Nat) : Nat :=
  min (4 * maxPeriod ts) (60 * tickRate)

/-- Modelled from the spec: the testing points contributed by one task —
the arithmetic progression `{Di + j*Ti : j ≥ 0, Di + j*Ti ≤ H}`. -/
def taskPoints (t : EDFParams) (H : Nat) : List Nat :=
  if t.xRelativeDeadline ≤ H then
    (List.range ((H - t.xRelativeDeadline) / t.xPeriod + 1)).map
      (fun j => t.xRelativeDeadline + j * t.xPeriod)
  else []

/-- Modelled from the spec: all testing points of the set within horizon `H`
(the union of the per-task deadline progressions). -/
def testingPoints (ts : List EDFParams) (H : Nat) : List Nat :=
  (ts.map (fun t => taskPoints t H)).flatten

/-- Modelled from the spec: `prvEDFCheckProcessorDemand` of `tasks.c`
(missing from the sources) — Processor Demand Analysis: accept iff
`h(L) ≤ L` at every testing point `L` within the horizon. -/
def prvEDFCheckProcessorDemand (ts : List EDFParams) (tickRate : Nat) : Bool :=
  (testingPoints ts (xHorizon ts tickRate)).all (fun L => decide (xDemand ts L ≤ L))

/-- Modelled from the spec: `prvEDFAdmissionControl` of `tasks.c` (missing
from the sources) — if every task has D = T use the LL bound, otherwise use
Processor Demand Analysis. -/
def prvEDFAdmissionControl (ts : List EDFParams) (tickRate : Nat) : Bool :=
  if ts.all (fun t => t.xRelativeDeadline == t.xPeriod) then
    prvEDFCheckLLBound ts
  else
    prvEDFCheckProcessorDemand ts tickRate

/-! ### The 100-task comparison scenario (`main_edf_100test.c`) -/

/-- The i-th candidate of `main_edf_100test.c` (1-based):
`C = TEST_WCET = 5`, `T = TEST_PERIOD = 250`,
`D = BASE_DEADLINE + (i-1)*5 = 30 + (i-1)*5` (ticks at 1 ms/tick). -/
def testTask (i : Nat) : EDFParams :=
  ⟨5, 250, 30 + 5 * (i - 1)⟩

/-- The set submitted incrementally after `i` candidates. -/
def tasksUpTo (i : Nat) : List EDFParams :=
  (List.range i).map (fun k => testTask (k + 1))

/-- The LL-bound verdict logged for the i-th candidate
(`xLLResult` in `main_edf_100test.c`; tick rate 1000 Hz). -/
def llAccept (i : Nat) : Bool :=
  prvEDFCheckLLBound (tasksUpTo i)

/-- The PDA verdict logged for the i-th candidate
(`xPDResult` in `main_edf_100test.c`; tick rate 1000 Hz). -/
def pdAccept (i : Nat) : Bool :=
  prvEDFCheckProcessorDemand (tasksUpTo i) 1000

/-- `iLLAccepted` at the end of the loop of `main_edf_100test.c`: the last
index whose LL verdict was PASS (0 if none). -/
def llAcceptedCount : Nat :=
  (List.range 100).foldl (fun acc k => if llAccept (k + 1) then k + 1 else acc) 0

/-- `iPDAccepted` at the end of the loop of `main_edf_100test.c`: the last
index whose PDA verdict was PASS (0 if none). -/
def pdAcceptedCount : Nat :=
  (List.range 100).foldl (fun acc k => if pdAccept (k + 1) then k + 1 else acc) 0

/-! ### The deadline-ordered ready list and the dispatcher -/

/-- An entry of the EDF ready list: `xItemValue` is the sort key of
`xStateListItem` (set to the job's absolute deadline) and `seq` records the
insertion sequence (used only to state the FIFO tie-break property). -/
structure ReadyJob where
  xItemValue : Nat
  seq : Nat
  deriving Repr, DecidableEq

/-- Modelled from the spec: `vListInsert` of `list.c` (missing from the
sources), as used by `prvAddTaskToReadyList` for EDF tasks — the walk stops
at the first entry whose `xItemValue` is strictly greater, so the new entry
lands after every entry with a key less than or equal to its own. -/
def vListInsert (j : ReadyJob) : List ReadyJob → List ReadyJob
  | [] => [j]
  | x :: xs =>
    if j.xItemValue < x.xItemValue then j :: x :: xs
    else x :: vListInsert j xs

/-- Building the ready list by a sequence of sorted inserts; jobs are tagged
with consecutive insertion sequence numbers starting at `n`. -/
def buildReadyAux : Nat → List Nat → List ReadyJob → List ReadyJob
  | _, [], acc => acc
  | n, d :: ds, acc => buildReadyAux (n + 1) ds (vListInsert ⟨d, n⟩ acc)

/-- The EDF ready list obtained by inserting jobs with the given absolute
deadlines, in order, into an initially empty list. -/
def buildReady (ds : List Nat) : List ReadyJob :=
  buildReadyAux 0 ds []

/-- Modelled from the spec: the EDF branch of
`taskSELECT_HIGHEST_PRIORITY_TASK` in `tasks.c` (missing from the sources) —
when `uxTopPriority > 0` the head of the sorted ready list is selected via
`listGET_HEAD_ENTRY`; otherwise the stock round-robin choice (passed here
abstractly as `legacyPick`) is used. -/
def taskSELECT (uxTopPriority : Nat) (legacyPick : Option ReadyJob)
    (ready : List ReadyJob) : Option ReadyJob :=
  if 0 < uxTopPriority then ready.head? else legacyPick

/-- The strict lexicographic order on (deadline, insertion sequence): the
ordering the EDF ready list maintains. -/
def keyLt (a b : ReadyJob) : Prop :=
  a.xItemValue < b.xItemValue ∨ (a.xItemValue = b.xItemValue ∧ a.seq < b.seq)

/-! ### TCB timing fields, release engine and preemption -/

/-- Modelled from the spec: the EDF-relevant fields of `tskTCB`
(`changes_EDF.md` §1; `tasks.c` missing from the sources). -/
structure TCB where
  xPeriod : Nat
  xRelativeDeadline : Nat
  xWCET : Nat
  xAbsoluteDeadline : Nat
  xNextReleaseTime : Nat
  xIsEDFTask : Bool
  uxPriority : Nat
  xItemValue : Nat
  deriving Repr, DecidableEq

/-- Modelled from the spec: the deadline update performed by
`xTaskIncrementTick` in `tasks.c` (missing from the sources) when an EDF task
moves from the delayed list back to the ready list, before
`prvAddTaskToReadyList`: `xAbsoluteDeadline = xNextReleaseTime +
xRelativeDeadline`, `xNextReleaseTime += xPeriod`, and the sort key
`xStateListItem.xItemValue` set to the new absolute deadline. -/
def edfWakeUpdate (t : TCB) : TCB :=
  { t with
    xAbsoluteDeadline := t.xNextReleaseTime + t.xRelativeDeadline,
    xNextReleaseTime := t.xNextReleaseTime + t.xPeriod,
    xItemValue := t.xNextReleaseTime + t.xRelativeDeadline }

/-- Modelled from the spec: the preemption check of `xTaskIncrementTick` in
`tasks.c` (missing from the sources), run after `prvAddTaskToReadyList`: if
both the waking and the running task are EDF tasks, a context switch is
requested iff the waking task's `xAbsoluteDeadline` is strictly earlier;
otherwise the stock strict priority comparison applies. -/
def xPreemptionCheck (waking running : TCB) : Bool :=
  if waking.xIsEDFTask && running.xIsEDFTask then
    decide (waking.xAbsoluteDeadline < running.xAbsoluteDeadline)
  else
    decide (running.uxPriority < waking.uxPriority)

/-! ### Task creation -/

/-- `configMAX_EDF_TASKS` (default 128): capacity of `xEDFTaskRegistry[]`. -/
def configMAX_EDF_TASKS : Nat := 128

/-- The scheduler state touched by `xTaskCreateEDF`: the registry, the EDF
ready list (priority-1 ready list), the delayed collaborator structure, the
tick count and the next insertion sequence number. -/
structure SchedState where
  xEDFTaskRegistry : List EDFParams
  readyList : List ReadyJob
  delayedList : List TCB
  xTickCount : Nat
  nextSeq : Nat
  deriving Repr, DecidableEq

/-- Modelled from the spec: `xTaskCreateEDF` of `tasks.c` (missing from the
sources).  Checks, in order: parameter validity `1 ≤ C ≤ D ≤ T`, registry
capacity, and admission of `registry ∪ {candidate}`; any failure returns
`pdFAIL` with the state untouched (admission runs before any allocation).
On success the candidate is appended to the registry and the first job is
inserted into the ready list with absolute deadline `currentTick + D`. -/
def xTaskCreateEDF (s : SchedState) (C T D tickRate : Nat) : Bool × SchedState :=
  if ¬ (1 ≤ C ∧ C ≤ D ∧ D ≤ T) then (false, s)
  else if configMAX_EDF_TASKS ≤ s.xEDFTaskRegistry.length then (false, s)
  else if ¬ (prvEDFAdmissionControl (s.xEDFTaskRegistry ++ [⟨C, T, D⟩]) tickRate = true) then
    (false, s)
  else
    (true,
      { s with
        xEDFTaskRegistry := s.xEDFTaskRegistry ++ [⟨C, T, D⟩],
        readyList := vListInsert ⟨s.xTickCount + D, s.nextSeq⟩ s.readyList,
        nextSeq := s.nextSeq + 1 })

/-! ### The deadline-miss monitor -/

/-- Modelled from the spec: the per-job state of the deadline-miss monitor
(spec §4.F, `design_EDF.md` §7): the job's absolute deadline, the task's
`xDeadlineMissCount`, and the per-instance memory that this job has already
been counted as missed. -/
structure MissState where
  xAbsoluteDeadline : Nat
  xDeadlineMissCount : Nat
  missedThisJob : Bool
  deriving Repr, DecidableEq

/-- Modelled from the spec: the per-tick miss check in `xTaskIncrementTick`
(`tasks.c` missing from the sources): if the current tick strictly exceeds
the job's absolute deadline and this job instance has not been counted yet,
increment `xDeadlineMissCount` exactly once and remember the miss. -/
def tickMissCheck (xTickCount : Nat) (m : MissState) : MissState :=
  if m.xAbsoluteDeadline < xTickCount && !m.missedThisJob then
    { m with xDeadlineMissCount := m.xDeadlineMissCount + 1, missedThisJob := true }
  else m

/-- The monitor run over a sequence of ticks within one job instance. -/
def runMissChecks (ticks : List Nat) (m : MissState) : MissState :=
  ticks.foldl (fun s t => tickMissCheck t s) m

/-! ### GPIO trace hooks (`main_edf.c`, present in the sources) -/

/-- The GPIO pin levels, one Boolean level per pin number. -/
def GpioState : Type := Nat → Bool

/-- `vTracePinHigh` from `main_edf.c`: reads the current task's application
task tag as a pin number; if it is nonzero, drives that GPIO high
(`gpio_put(pin, 1)`), else does nothing. -/
def vTracePinHigh (tag : Nat) (g : GpioState) : GpioState :=
  if tag ≠ 0 then fun p => if p = tag then true else g p
  else g

/-- `vTracePinLow` from `main_edf.c`: reads the current task's application
task tag as a pin number; if it is nonzero, drives that GPIO low
(`gpio_put(pin, 0)`), else does nothing. -/
def vTracePinLow (tag : Nat) (g : GpioState) : GpioState :=
  if tag ≠ 0 then fun p => if p = tag then false else g p
  else g

/-! ## Theorems -/

/-! ### Liu & Layland bound (claim C2) -/

theorem lt_div_succ_mul (a b : Nat) (hb : 0 < b) : a < (a / b + 1) * b := by
  have h1 := Nat.div_add_mod a b
  have h2 := Nat.mod_lt a hb
  calc a = b * (a / b) + a % b := h1.symm
  _ < b * (a / b) + b := by omega
  _ = (a / b + 1) * b := by ring

/-- Each fixed-point term under-approximates the exact utilization term by
less than one unit of the scale: `Ci/Ti ≤ (llTerm i + 1)/10000`. -/
theorem util_term_le (t : EDFParams) (hT : 0 < t.xPeriod) :
    (t.xWCET : ℚ) / (t.xPeriod : ℚ) ≤ ((llTerm t : ℚ) + 1) / 10000 := by
  rw [div_le_div_iff₀ (by exact_mod_cast hT) (by norm_num)]
  have h := (lt_div_succ_mul (t.xWCET * 10000) t.xPeriod hT).le
  have h2 : ((t.xWCET * 10000 : ℕ) : ℚ) ≤
      (((t.xWCET * 10000 / t.xPeriod + 1) * t.xPeriod : ℕ) : ℚ) := by exact_mod_cast h
  push_cast at h2
  simpa [llTerm] using h2

/-- The exact utilization is bounded by the scaled fixed-point sum plus one
scale unit per task. -/
theorem llUtil_le (ts : List EDFParams) (hT : ∀ t ∈ ts, 0 < t.xPeriod) :
    utilization ts ≤ (((ts.map llTerm).sum : ℚ) + (ts.length : ℚ)) / 10000 := by
  induction ts with
  | nil => simp [utilization]
  | cons t ts ih =>
    have hTt : 0 < t.xPeriod := hT t (List.mem_cons_self t ts)
    have hTts : ∀ u ∈ ts, 0 < u.xPeriod := fun u hu => hT u (List.mem_cons_of_mem t hu)
    have key := util_term_le t hTt
    have ih' := ih hTts
    have hsplit : utilization (t :: ts) =
        (t.xWCET : ℚ) / (t.xPeriod : ℚ) + utilization ts := by
      simp [utilization]
    rw [hsplit]
    have hrhs : ((((t :: ts).map llTerm).sum : ℚ) + ((t :: ts).length : ℚ)) / 10000 =
        ((llTerm t : ℚ) + 1) / 10000 +
          (((ts.map llTerm).sum : ℚ) + (ts.length : ℚ)) / 10000 := by
      simp only [List.map_cons, List.sum_cons, List.length_cons]
      push_cast
      ring
    rw [hrhs]
    exact add_le_add key ih'

/-- The claim "LL acceptance implies `Σ Ci/Ti ≤ 1`" fails on the code: the
two-task set `{(C,T,D)} = {(1,1,1), (1,10001,10001)}` (both with `D = T`) is
accepted by the fixed-point test — the second task's term floors to 0 — yet
its exact utilization is `1 + 1/10001 > 1`. -/
theorem C2_ll_safety_counterexample :
    prvEDFCheckLLBound [⟨1, 1, 1⟩, ⟨1, 10001, 10001⟩] = true ∧
      ¬ (utilization [⟨1, 1, 1⟩, ⟨1, 10001, 10001⟩] ≤ 1) := by
  constructor
  · decide
  · intro h
    have : (1 : ℚ) / 1 + ((1 : ℚ) / 10001 + 0) ≤ 1 := by
      simpa [utilization] using h
    norm_num at this

/-- Claim C2, amended: for a task set each of whose periods is positive, if
the fixed-point LL test accepts (`Σ_i floor(Ci*10000/Ti) ≤ 10000`), then the
exact rational utilization satisfies `Σ_i Ci/Ti ≤ 1 + n/10000` where `n` is
the number of tasks (each floored term loses less than `1/10000`). -/
theorem C2_ll_safety_amended (ts : List EDFParams)
    (hT : ∀ t ∈ ts, 0 < t.xPeriod)
    (hacc : prvEDFCheckLLBound ts = true) :
    utilization ts ≤ 1 + (ts.length : ℚ) / 10000 := by
  have hsum : (ts.map llTerm).sum ≤ 10000 := by
    have := hacc
    unfold prvEDFCheckLLBound at this
    exact of_decide_eq_true this
  have h2 : (((ts.map llTerm).sum : ℕ) : ℚ) ≤ 10000 := by exact_mod_cast hsum
  calc utilization ts
      ≤ (((ts.map llTerm).sum : ℚ) + (ts.length : ℚ)) / 10000 := llUtil_le ts hT
  _ ≤ ((10000 : ℚ) + (ts.length : ℚ)) / 10000 := by gcongr
  _ = 1 + (ts.length : ℚ) / 10000 := by ring

theorem C2_ll_safety_amended_witness :
    (∀ t ∈ [(⟨1, 2, 2⟩ : EDFParams)], 0 < t.xPeriod) ∧
      prvEDFCheckLLBound [(⟨1, 2, 2⟩ : EDFParams)] = true ∧
      utilization [(⟨1, 2, 2⟩ : EDFParams)] ≤
        1 + (([(⟨1, 2, 2⟩ : EDFParams)].length : ℚ)) / 10000 :=
  ⟨by decide, by decide,
    C2_ll_safety_amended [⟨1, 2, 2⟩] (by decide) (by decide)⟩

/-! ### Processor Demand Analysis (claim C3) -/

/-- Any point of the progression `Di + j*Ti` that lies within the horizon is
among the enumerated testing points of its task. -/
theorem mem_taskPoints_of_le {t : EDFParams} {H : Nat} (j : Nat)
    (h : t.xRelativeDeadline + j * t.xPeriod ≤ H) :
    t.xRelativeDeadline + j * t.xPeriod ∈ taskPoints t H := by
  have hD : t.xRelativeDeadline ≤ H := le_trans (Nat.le_add_right _ _) h
  unfold taskPoints
  rw [if_pos hD]
  rcases Nat.eq_zero_or_pos t.xPeriod with hT | hT
  · refine List.mem_map.mpr ⟨0, List.mem_range.mpr (Nat.succ_pos _), ?_⟩
    simp [hT]
  · refine List.mem_map.mpr ⟨j, List.mem_range.mpr (Nat.lt_succ_of_le ?_), rfl⟩
    rw [Nat.le_div_iff_mul_le hT]
    omega

/-- Every enumerated testing point of a task lies within the horizon and is
of the form `Di + j*Ti`. -/
theorem taskPoints_le {t : EDFParams} {H L : Nat} (hL : L ∈ taskPoints t H) :
    L ≤ H ∧ ∃ j : Nat, L = t.xRelativeDeadline + j * t.xPeriod := by
  unfold taskPoints at hL
  by_cases hD : t.xRelativeDeadline ≤ H
  · rw [if_pos hD] at hL
    obtain ⟨j, hj, rfl⟩ := List.mem_map.mp hL
    have hj' : j ≤ (H - t.xRelativeDeadline) / t.xPeriod :=
      Nat.lt_succ_iff.mp (List.mem_range.mp hj)
    refine ⟨?_, j, rfl⟩
    have h1 : j * t.xPeriod ≤
        (H - t.xRelativeDeadline) / t.xPeriod * t.xPeriod :=
      Nat.mul_le_mul_right _ hj'
    have h2 : (H - t.xRelativeDeadline) / t.xPeriod * t.xPeriod ≤
        H - t.xRelativeDeadline := Nat.div_mul_le_self _ _
    omega
  · rw [if_neg hD] at hL
    simp at hL

/-- Claim C3: if Processor Demand Analysis accepts a task set, then at every
testing point `L = Di + j*Ti` within the horizon
`H = min(4*max_i(Ti), 60*tick_rate)`, the demand satisfies `h(L) ≤ L`; and a
task whose relative deadline exceeds `L` contributes zero to `h(L)`. -/
theorem C3_pda_sound (ts : List EDFParams) (tickRate : Nat)
    (hacc : prvEDFCheckProcessorDemand ts tickRate = true) :
    (∀ t ∈ ts, ∀ j : Nat,
      t.xRelativeDeadline + j * t.xPeriod ≤ xHorizon ts tickRate →
        xDemand ts (t.xRelativeDeadline + j * t.xPeriod) ≤
          t.xRelativeDeadline + j * t.xPeriod) ∧
    (∀ t : EDFParams, ∀ L : Nat, L < t.xRelativeDeadline → demandTerm t L = 0) := by
  constructor
  · intro t ht j hj
    unfold prvEDFCheckProcessorDemand at hacc
    have hall := List.all_eq_true.mp hacc
    have hmem : t.xRelativeDeadline + j * t.xPeriod ∈
        testingPoints ts (xHorizon ts tickRate) := by
      unfold testingPoints
      exact List.mem_flatten.mpr
        ⟨taskPoints t (xHorizon ts tickRate),
          List.mem_map.mpr ⟨t, ht, rfl⟩, mem_taskPoints_of_le j hj⟩
    exact of_decide_eq_true (hall _ hmem)
  · intro t L hL
    simp [demandTerm, hL]

theorem C3_pda_sound_witness :
    prvEDFCheckProcessorDemand [(⟨1, 4, 4⟩ : EDFParams)] 1 = true ∧
      xDemand [(⟨1, 4, 4⟩ : EDFParams)] 4 ≤ 4 ∧
      demandTerm (⟨1, 4, 4⟩ : EDFParams) 3 = 0 := by
  have h := C3_pda_sound [(⟨1, 4, 4⟩ : EDFParams)] 1 (by decide)
  refine ⟨by decide, ?_, h.2 ⟨1, 4, 4⟩ 3 (by decide)⟩
  have h1 := h.1 ⟨1, 4, 4⟩ (by simp) 0 (by decide)
  simpa using h1

/-- The demand of a set grows when a task is appended. -/
theorem xDemand_append (ts : List EDFParams) (t : EDFParams) (L : Nat) :
    xDemand (ts ++ [t]) L = xDemand ts L + demandTerm t L := by
  simp [xDemand]

/-- Appending a task cannot shrink the largest period. -/
theorem maxPeriod_le_append (ts : List EDFParams) (t : EDFParams) :
    maxPeriod ts ≤ maxPeriod (ts ++ [t]) := by
  induction ts with
  | nil => simp [maxPeriod]
  | cons u us ih =>
    simp only [maxPeriod, List.foldr_cons, List.cons_append] at *
    omega

/-- Appending a task cannot shrink the PDA horizon. -/
theorem xHorizon_le_append (ts : List EDFParams) (t : EDFParams) (tickRate : Nat) :
    xHorizon ts tickRate ≤ xHorizon (ts ++ [t]) tickRate := by
  unfold xHorizon
  have := maxPeriod_le_append ts t
  omega

/-- Rejection by Processor Demand Analysis is monotone under appending a
task: the same violating testing point remains a testing point (the horizon
only grows) and the demand only grows. -/
theorem pd_reject_append (ts : List EDFParams) (t : EDFParams) (tickRate : Nat)
    (hrej : prvEDFCheckProcessorDemand ts tickRate = false) :
    prvEDFCheckProcessorDemand (ts ++ [t]) tickRate = false := by
  cases hbig : prvEDFCheckProcessorDemand (ts ++ [t]) tickRate with
  | false => rfl
  | true =>
    exfalso
    unfold prvEDFCheckProcessorDemand at hrej hbig
    rw [List.all_eq_false] at hrej
    obtain ⟨L, hLmem, hLviol⟩ := hrej
    have hdem : ¬ (xDemand ts L ≤ L) := by
      intro hle
      exact hLviol (by simpa using hle)
    obtain ⟨src, hsrc, hLsrc⟩ := List.mem_flatten.mp hLmem
    obtain ⟨u, hu, rfl⟩ := List.mem_map.mp hsrc
    obtain ⟨hLH, j, rfl⟩ := taskPoints_le hLsrc
    set L := u.xRelativeDeadline + j * u.xPeriod with hLdef
    have hL' : L ≤ xHorizon (ts ++ [t]) tickRate :=
      le_trans hLH (xHorizon_le_append ts t tickRate)
    have hmem' : L ∈ testingPoints (ts ++ [t]) (xHorizon (ts ++ [t]) tickRate) := by
      unfold testingPoints
      exact List.mem_flatten.mpr
        ⟨taskPoints u (xHorizon (ts ++ [t]) tickRate),
          List.mem_map.mpr ⟨u, List.mem_append_left _ hu, rfl⟩,
          mem_taskPoints_of_le j hL'⟩
    have hall := List.all_eq_true.mp hbig _ hmem'
    have : xDemand (ts ++ [t]) L ≤ L := of_decide_eq_true hall
    rw [xDemand_append] at this
    omega

/-! ### The deadline-ordered ready list (claim C1) -/

theorem keyLt_item_le {a b : ReadyJob} (h : keyLt a b) :
    a.xItemValue ≤ b.xItemValue := by
  rcases h with h | ⟨h, _⟩
  · exact h.le
  · exact h.le

theorem mem_vListInsert {j x : ReadyJob} {l : List ReadyJob} :
    x ∈ vListInsert j l ↔ x = j ∨ x ∈ l := by
  induction l with
  | nil => simp [vListInsert]
  | cons a as ih =>
    by_cases h : j.xItemValue < a.xItemValue
    · simp only [vListInsert, if_pos h, List.mem_cons]
      try tauto
    · simp only [vListInsert, if_neg h, List.mem_cons, ih]
      try tauto

/-- The sorted insert preserves the strict (deadline, sequence) ordering of
the ready list provided the new job's sequence number is fresh (larger than
every sequence number already present): an entry with an equal deadline is
passed over, so FIFO order among equal deadlines is maintained. -/
theorem vListInsert_pairwise {j : ReadyJob} {l : List ReadyJob}
    (hl : l.Pairwise keyLt) (hseq : ∀ x ∈ l, x.seq < j.seq) :
    (vListInsert j l).Pairwise keyLt := by
  induction l with
  | nil => simp [vListInsert]
  | cons x xs ih =>
    rcases List.pairwise_cons.mp hl with ⟨hx, hxs⟩
    by_cases h : j.xItemValue < x.xItemValue
    · rw [vListInsert, if_pos h]
      refine List.pairwise_cons.mpr ⟨?_, hl⟩
      intro y hy
      rcases List.mem_cons.mp hy with rfl | hy'
      · exact Or.inl h
      · exact Or.inl (lt_of_lt_of_le h (keyLt_item_le (hx y hy')))
    · rw [vListInsert, if_neg h]
      refine List.pairwise_cons.mpr ⟨?_, ?_⟩
      · intro y hy
        rcases mem_vListInsert.mp hy with rfl | hy'
        · rcases Nat.lt_or_ge x.xItemValue y.xItemValue with hlt | hge
          · exact Or.inl hlt
          · have : x.xItemValue = y.xItemValue := le_antisymm (le_of_not_lt h) hge
            exact Or.inr ⟨this, hseq x (List.mem_cons_self x xs)⟩
        · exact hx y hy'
      · exact ih hxs (fun y hy => hseq y (List.mem_cons_of_mem x hy))

theorem buildReadyAux_pairwise :
    ∀ (ds : List Nat) (n : Nat) (acc : List ReadyJob),
      acc.Pairwise keyLt → (∀ x ∈ acc, x.seq < n) →
        (buildReadyAux n ds acc).Pairwise keyLt := by
  intro ds
  induction ds with
  | nil => intro n acc hp _; simpa [buildReadyAux] using hp
  | cons d ds ih =>
    intro n acc hp hseq
    rw [buildReadyAux]
    refine ih (n + 1) _ (vListInsert_pairwise hp hseq) ?_
    intro x hx
    rcases mem_vListInsert.mp hx with rfl | hx'
    · exact Nat.lt_succ_self n
    · exact Nat.lt_succ_of_lt (hseq x hx')

/-- The ready list built by EDF sorted inserts is strictly ordered by
(deadline, insertion sequence). -/
theorem buildReady_pairwise (ds : List Nat) : (buildReady ds).Pairwise keyLt :=
  buildReadyAux_pairwise ds 0 [] List.Pairwise.nil (by simp)

/-- Claim C1: at a scheduling event where the EDF priority level is selected
(`uxTopPriority > 0`), the chosen task is the head of the ready list, and
that head minimizes the absolute deadline over the whole ready list, with
ties among equal deadlines resolved in favor of the job inserted first. -/
theorem C1_dispatch (uxTopPriority : Nat) (legacyPick : Option ReadyJob)
    (ds : List Nat) (h : ReadyJob) (hP : 0 < uxTopPriority)
    (hsel : taskSELECT uxTopPriority legacyPick (buildReady ds) = some h) :
    (buildReady ds).head? = some h ∧
      ∀ j ∈ buildReady ds, h.xItemValue ≤ j.xItemValue ∧
        (j.xItemValue = h.xItemValue → h.seq ≤ j.seq) := by
  unfold taskSELECT at hsel
  rw [if_pos hP] at hsel
  refine ⟨hsel, ?_⟩
  have hpair := buildReady_pairwise ds
  obtain ⟨rest, hrest⟩ : ∃ rest, buildReady ds = h :: rest := by
    cases hb : buildReady ds with
    | nil => rw [hb] at hsel; exact absurd hsel (by simp)
    | cons a as =>
      rw [hb] at hsel
      have ha : a = h := by simpa using hsel
      exact ⟨as, by rw [ha]⟩
  rw [hrest] at hpair ⊢
  rcases List.pairwise_cons.mp hpair with ⟨hhead, _⟩
  intro j hj
  rcases List.mem_cons.mp hj with rfl | hj'
  · exact ⟨le_refl _, fun _ => le_refl _⟩
  · have hk := hhead j hj'
    refine ⟨keyLt_item_le hk, ?_⟩
    intro heq
    rcases hk with hlt | ⟨_, hseq⟩
    · omega
    · exact hseq.le

theorem C1_dispatch_witness :
    taskSELECT 1 none (buildReady [5, 3, 3, 7]) = some ⟨3, 1⟩ ∧
      (∀ j ∈ buildReady [5, 3, 3, 7],
        (3 : Nat) ≤ j.xItemValue ∧ (j.xItemValue = 3 → 1 ≤ j.seq)) := by
  have h := C1_dispatch 1 none [5, 3, 3, 7] ⟨3, 1⟩ (by decide) (by decide)
  exact ⟨by decide, fun j hj => h.2 j hj⟩

/-! ### The release engine (claim C4) -/

/-- Claim C4: when an EDF task is woken from the delayed list, the release
update sets `xAbsoluteDeadline` to `xNextReleaseTime + xRelativeDeadline`,
advances `xNextReleaseTime` by `xPeriod`, and writes the new absolute
deadline into the container sort key; consequently two successive wake-ups
of the same task have `abs_deadline_{k+1} = abs_deadline_k + T`. -/
theorem C4_release_update (t : TCB) :
    (edfWakeUpdate t).xAbsoluteDeadline = t.xNextReleaseTime + t.xRelativeDeadline ∧
    (edfWakeUpdate t).xNextReleaseTime = t.xNextReleaseTime + t.xPeriod ∧
    (edfWakeUpdate t).xItemValue = (edfWakeUpdate t).xAbsoluteDeadline ∧
    (edfWakeUpdate (edfWakeUpdate t)).xAbsoluteDeadline =
      (edfWakeUpdate t).xAbsoluteDeadline + t.xPeriod := by
  refine ⟨rfl, rfl, rfl, ?_⟩
  simp [edfWakeUpdate]
  omega

/-! ### Deadline-aware preemption (claim C5) -/

/-- Claim C5: when the waking and the running task are both EDF tasks, a
context switch is requested iff the waking task's absolute deadline is
strictly earlier; equal deadlines never preempt. -/
theorem C5_preemption (waking running : TCB)
    (hw : waking.xIsEDFTask = true) (hr : running.xIsEDFTask = true) :
    (xPreemptionCheck waking running = true ↔
      waking.xAbsoluteDeadline < running.xAbsoluteDeadline) ∧
    (waking.xAbsoluteDeadline = running.xAbsoluteDeadline →
      xPreemptionCheck waking running = false) := by
  constructor
  · simp [xPreemptionCheck, hw, hr]
  · intro heq
    simp [xPreemptionCheck, hw, hr, heq]

theorem C5_preemption_witness :
    (xPreemptionCheck ⟨400, 200, 80, 500, 700, true, 1, 500⟩
        ⟨1600, 1000, 400, 1300, 1900, true, 1, 1300⟩ = true) ∧
    (xPreemptionCheck ⟨400, 200, 80, 1300, 700, true, 1, 1300⟩
        ⟨1600, 1000, 400, 1300, 1900, true, 1, 1300⟩ = false) := by
  constructor
  · exact (C5_preemption _ _ rfl rfl).1.mpr (by decide)
  · exact (C5_preemption _ _ rfl rfl).2 rfl

/-! ### Creation-failure atomicity (claims C6 and C7) -/

/-- Claim C6: a rejected `xTaskCreateEDF` — whatever the rejection reason —
leaves the whole scheduler state (registry, ready list, delayed structure,
tick count) exactly as it was before the call. -/
theorem C6_reject_atomic (s : SchedState) (C T D tickRate : Nat)
    (h : (xTaskCreateEDF s C T D tickRate).1 = false) :
    (xTaskCreateEDF s C T D tickRate).2 = s := by
  unfold xTaskCreateEDF at h ⊢
  split_ifs at h ⊢ <;> simp_all

theorem C6_reject_atomic_witness :
    (xTaskCreateEDF ⟨[], [], [], 0, 0⟩ 0 5 5 1000).1 = false ∧
      (xTaskCreateEDF ⟨[], [], [], 0, 0⟩ 0 5 5 1000).2 = ⟨[], [], [], 0, 0⟩ :=
  ⟨by decide, C6_reject_atomic ⟨[], [], [], 0, 0⟩ 0 5 5 1000 (by decide)⟩

/-- Claim C7: a creation call whose parameters violate `1 ≤ C ≤ D ≤ T`
returns a failure code, and no registry entry is added (indeed the whole
state is unchanged, so no task is created). -/
theorem C7_invalid_params (s : SchedState) (C T D tickRate : Nat)
    (hbad : C < 1 ∨ D < C ∨ T < D) :
    (xTaskCreateEDF s C T D tickRate).1 = false ∧
      (xTaskCreateEDF s C T D tickRate).2.xEDFTaskRegistry = s.xEDFTaskRegistry ∧
      (xTaskCreateEDF s C T D tickRate).2 = s := by
  have hcond : ¬ (1 ≤ C ∧ C ≤ D ∧ D ≤ T) := by omega
  rw [xTaskCreateEDF, if_pos hcond]
  exact ⟨rfl, rfl, rfl⟩

theorem C7_invalid_params_witness :
    (xTaskCreateEDF ⟨[], [], [], 0, 0⟩ 6 10 5 1000).1 = false ∧
      (xTaskCreateEDF ⟨[], [], [], 0, 0⟩ 6 10 5 1000).2.xEDFTaskRegistry = [] := by
  have h := C7_invalid_params ⟨[], [], [], 0, 0⟩ 6 10 5 1000 (by omega)
  exact ⟨h.1, h.2.1⟩

/-! ### The deadline-miss monitor (claim C9) -/

theorem runMissChecks_missed (ticks : List Nat) (m : MissState)
    (hm : m.missedThisJob = true) : runMissChecks ticks m = m := by
  induction ticks with
  | nil => rfl
  | cons t rest ih =>
    unfold runMissChecks at ih ⊢
    rw [List.foldl_cons]
    have : tickMissCheck t m = m := by
      unfold tickMissCheck
      rw [hm]
      simp
    rw [this]
    exact ih

/-- Claim C9: over the ticks of one job instance (the per-instance memory
starts clear), the task's `xDeadlineMissCount` increases by exactly one if
some tick strictly exceeds the job's absolute deadline, and by zero
otherwise — never twice for the same job instance, and a tick equal to the
deadline is not a miss. -/
theorem C9_miss_once (ticks : List Nat) (m : MissState)
    (hm : m.missedThisJob = false) :
    (runMissChecks ticks m).xDeadlineMissCount =
      m.xDeadlineMissCount +
        (if ticks.any (fun t => decide (m.xAbsoluteDeadline < t)) then 1 else 0) := by
  induction ticks generalizing m with
  | nil => simp [runMissChecks]
  | cons t rest ih =>
    unfold runMissChecks
    rw [List.foldl_cons]
    by_cases hlt : m.xAbsoluteDeadline < t
    · have hstep : tickMissCheck t m =
          { m with xDeadlineMissCount := m.xDeadlineMissCount + 1,
                   missedThisJob := true } := by
        unfold tickMissCheck
        rw [hm]
        simp [hlt]
      rw [hstep]
      have hrest := runMissChecks_missed rest
        { m with xDeadlineMissCount := m.xDeadlineMissCount + 1,
                 missedThisJob := true } rfl
      unfold runMissChecks at hrest
      rw [hrest]
      simp [hlt]
    · have hstep : tickMissCheck t m = m := by
        unfold tickMissCheck
        simp [hlt]
      rw [hstep]
      have := ih m hm
      unfold runMissChecks at this
      rw [this]
      simp [hlt]

theorem C9_miss_once_witness :
    (runMissChecks [9, 10, 11, 12] ⟨10, 0, false⟩).xDeadlineMissCount = 1 := by
  have h := C9_miss_once [9, 10, 11, 12] ⟨10, 0, false⟩ rfl
  simpa using h

/-! ### GPIO trace hooks (claim C10) -/

/-- Claim C10: with the application task tag unset (0), `vTracePinHigh` and
`vTracePinLow` leave every pin level unchanged; with a nonzero tag they
drive exactly the pin named by the tag high resp. low and touch no other
pin. -/
theorem C10_trace_hooks (tag : Nat) (g : GpioState) :
    (tag = 0 → vTracePinHigh tag g = g ∧ vTracePinLow tag g = g) ∧
    (tag ≠ 0 →
      vTracePinHigh tag g tag = true ∧ vTracePinLow tag g tag = false ∧
        ∀ p : Nat, p ≠ tag →
          vTracePinHigh tag g p = g p ∧ vTracePinLow tag g p = g p) := by
  constructor
  · intro h0
    constructor <;> simp [vTracePinHigh, vTracePinLow, h0]
  · intro hne
    refine ⟨?_, ?_, ?_⟩
    · simp [vTracePinHigh, hne]
    · simp [vTracePinLow, hne]
    · intro p hp
      constructor <;> simp [vTracePinHigh, vTracePinLow, hne, hp]

theorem C10_trace_hooks_witness :
    vTracePinHigh 0 (fun _ => false) = (fun _ => false) ∧
      vTracePinHigh 16 (fun _ => false) 16 = true ∧
      vTracePinLow 16 (fun _ => true) 16 = false ∧
      vTracePinHigh 16 (fun _ => false) 17 = false := by
  refine ⟨((C10_trace_hooks 0 (fun _ => false)).1 rfl).1, ?_, ?_, ?_⟩
  · exact ((C10_trace_hooks 16 (fun _ => false)).2 (by decide)).1
  · exact ((C10_trace_hooks 16 (fun _ => true)).2 (by decide)).2.1
  · have h := ((C10_trace_hooks 16 (fun _ => false)).2 (by decide)).2.2 17 (by decide)
    exact h.1

/-! ### The 100-task comparison (claim C8) -/

theorem tasksUpTo_succ (i : Nat) :
    tasksUpTo (i + 1) = tasksUpTo i ++ [testTask (i + 1)] := by
  simp [tasksUpTo, List.range_succ]

/-- PDA rejection is monotone in the number of submitted candidates. -/
theorem pd_reject_mono {i j : Nat} (hij : i ≤ j) (hrej : pdAccept i = false) :
    pdAccept j = false := by
  induction j, hij using Nat.le_induction with
  | base => exact hrej
  | succ j _ ih =>
    unfold pdAccept at ih ⊢
    rw [tasksUpTo_succ]
    exact pd_reject_append _ _ _ ih

set_option maxRecDepth 40000 in
theorem pdAccept_51 : pdAccept 51 = true := by decide

set_option maxRecDepth 40000 in
theorem pdAccept_52 : pdAccept 52 = false := by decide

set_option maxRecDepth 100000 in
theorem llAccept_eval :
    ((List.range 100).all (fun k => llAccept (k + 1) == decide (k + 1 ≤ 50))) = true := by
  decide

theorem llAccept_iff {k : Nat} (hk : k < 100) :
    llAccept (k + 1) = decide (k + 1 ≤ 50) := by
  have h := List.all_eq_true.mp llAccept_eval k (List.mem_range.mpr hk)
  simpa using h

theorem pdAccept_true_of_le {i : Nat} (h51 : i ≤ 51) : pdAccept i = true := by
  cases hacc : pdAccept i with
  | true => rfl
  | false => exact absurd (pdAccept_51.symm.trans (pd_reject_mono h51 hacc)) (by decide)

theorem pdAccept_false_of_ge {i : Nat} (h : 52 ≤ i) : pdAccept i = false :=
  pd_reject_mono h pdAccept_52

theorem pdAccept_iff {k : Nat} (hk : k < 100) :
    pdAccept (k + 1) = decide (k + 1 ≤ 51) := by
  by_cases h : k + 1 ≤ 51
  · rw [pdAccept_true_of_le h]
    simp [h]
  · rw [pdAccept_false_of_ge (by omega)]
    simp [h]

/-- The "last accepted index" loop of `main_edf_100test.c`: when a verdict
holds exactly for the first `m` candidates, the loop ends with `m`. -/
theorem lastAcceptFold (p : Nat → Bool) (m : Nat) :
    ∀ n : Nat, 1 ≤ m → m ≤ n → (∀ k, k < n → p (k + 1) = decide (k + 1 ≤ m)) →
      (List.range n).foldl (fun acc k => if p (k + 1) then k + 1 else acc) 0 = m := by
  intro n
  induction n with
  | zero => intro h1 h2 _; omega
  | succ n ih =>
    intro h1 h2 hp
    rw [List.range_succ, List.foldl_append]
    simp only [List.foldl_cons, List.foldl_nil]
    by_cases hm : m = n + 1
    · have hpt : p (n + 1) = true := by
        rw [hp n (Nat.lt_succ_self n)]
        simp [hm]
      rw [hpt]
      simp [hm]
    · have hmn : m ≤ n := by omega
      have hpf : p (n + 1) = false := by
        rw [hp n (Nat.lt_succ_self n)]
        simp
        omega
      rw [hpf]
      simp only [Bool.false_eq_true, if_false]
      exact ih h1 hmn (fun k hk => hp k (Nat.lt_succ_of_lt hk))

theorem llAcceptedCount_eq : llAcceptedCount = 50 := by
  unfold llAcceptedCount
  exact lastAcceptFold llAccept 50 100 (by omega) (by omega)
    (fun k hk => llAccept_iff hk)

theorem pdAcceptedCount_eq : pdAcceptedCount = 51 := by
  unfold pdAcceptedCount
  exact lastAcceptFold pdAccept 51 100 (by omega) (by omega)
    (fun k hk => pdAccept_iff hk)

/-- Claim C8: in the 100-task comparison of `main_edf_100test.c`
(`C = 5`, `T = 250`, `D_i = 30 + 5*(i-1)` ticks), the LL bound accepts
candidates 1 through 50 and first rejects the 51st, PDA still accepts the
51st (one candidate beyond the LL rejection point) before rejecting from the
52nd on, and the final loop counters satisfy `PDA_accepted > LL_accepted`
(51 > 50). -/
theorem C8_hundred_task_divergence :
    ((List.range 50).all (fun k => llAccept (k + 1))) = true ∧
    llAccept 51 = false ∧
    pdAccept 51 = true ∧
    pdAccept 52 = false ∧
    llAcceptedCount = 50 ∧ pdAcceptedCount = 51 ∧
    llAcceptedCount < pdAcceptedCount := by
  refine ⟨?_, ?_, pdAccept_51, pdAccept_52, llAcceptedCount_eq, pdAcceptedCount_eq, ?_⟩
  · rw [List.all_eq_true]
    intro k hk
    have hk' : k < 100 := by
      have := List.mem_range.mp hk
      omega
    rw [llAccept_iff hk']
    have := List.mem_range.mp hk
    simp
    omega
  · have h := llAccept_iff (show (50 : Nat) < 100 by omega)
    simpa using h
  · rw [llAcceptedCount_eq, pdAcceptedCount_eq]
    omega

end EDF
